import Mathlib

/-!
Verification of the project_packages build orchestrator.

The repository consists of five Conan recipe declarations (cmsis, FreeRTOS,
ST67W6X_Network_Driver, stm32g4_hal_driver, arm-none-eabi-gcc).  The core
engines the recipes plug into (recipe loader, artifact acquirer, packaging
engine, dependency graph resolver, build-environment composer) are specified
in the design document; they are modelled here from the spec, and the
declarative data of each recipe (requirements, copy rules, exported build
info) is translated from the conanfile sources.
-/

namespace ProjectPackages

/-- Decidable equality for Except, so concrete runs of the fallible engine
operations can be checked by evaluation. -/
instance {ε α : Type} [DecidableEq ε] [DecidableEq α] : DecidableEq (Except ε α) :=
  fun a b =>
  match a, b with
  | .error e₁, .error e₂ => decidable_of_iff (e₁ = e₂) (by simp)
  | .error _, .ok _ => isFalse (by simp)
  | .ok _, .error _ => isFalse (by simp)
  | .ok v₁, .ok v₂ => decidable_of_iff (v₁ = v₂) (by simp)

/-! ## Recipe loader (spec section 4.1) -/

/-- Whitespace characters stripped by Python str.strip, as used by the
recipes' set_version (load of version.txt followed by strip). -/
def isPyWs (c : Char) : Bool :=
  c == ' ' || c == '\t' || c == '\n' || c == '\r' || c == '\x0b' || c == '\x0c'

/-- Python str.strip modelled on the character list of a string: drop leading
whitespace, then drop trailing whitespace (via reverse). -/
def pyStrip (l : List Char) : List Char :=
  ((l.dropWhile isPyWs).reverse.dropWhile isPyWs).reverse

/-- Errors of the recipe loader. -/
inductive LoadError where
  | InvalidVersion
  | UnknownPackageType
deriving DecidableEq, Repr

/-- Modelled from the spec: the Recipe Loader (not part of the recipe sources
under src/) resolves the version exactly once from a version descriptor; the
recipes' set_version reads version.txt and strips it.  A missing descriptor,
or one whose content is empty after trimming, is an InvalidVersion error. -/
def resolveVersion (descriptor : Option (List Char)) : Except LoadError (List Char) :=
  match descriptor with
  | none => .error .InvalidVersion
  | some s =>
    let v := pyStrip s
    if v = [] then .error .InvalidVersion else .ok v

/-! ## Packaging engine (spec section 4.3)

Paths are lists of components.  A glob pattern is either a match-all star or
a filename-suffix pattern such as star-dot-h (Conan copy patterns use fnmatch,
whose star also crosses directory separators, so a suffix pattern matches at
any depth). -/

abbrev Path := List String

/-- Glob patterns occurring in the recipes' copy rules. -/
inductive Glob where
  | any
  | ext (suf : String)
deriving DecidableEq, Repr

/-- Whether one character list is a suffix of another. -/
def endsWithChars (s suf : List Char) : Bool :=
  if suf.length ≤ s.length then s.drop (s.length - suf.length) == suf else false

/-- Whether a glob matches the relative path of a file. -/
def globMatch : Glob → Path → Bool
  | .any, _ => true
  | .ext suf, rel =>
    match rel.getLast? with
    | some f => endsWithChars f.data suf.data
    | none => false

/-- One copy rule of a recipe's source manifest: glob pattern, source subtree,
destination subtree, preserve-structure flag (Conan keep_path). -/
structure CopyRule where
  pattern : Glob
  srcSub : Path
  dstSub : Path
  keepPath : Bool
deriving DecidableEq, Repr

/-- Remove a leading subtree from a path, giving the relative remainder. -/
def stripPre : Path → Path → Option Path
  | [], p => some p
  | _ :: _, [] => none
  | a :: as, b :: bs => if a = b then stripPre as bs else none

/-- A source tree: finitely many files, each a path with its byte content. -/
abbrev SourceTree := List (Path × String)

/-- Modelled from the spec: the writes one copy rule performs against a source
tree.  A file under the rule's source subtree whose relative path matches the
glob is copied to the destination subtree, keeping the relative structure when
keepPath is set and flattening to the filename otherwise. -/
def ruleWrites (rule : CopyRule) (tree : SourceTree) : List (Path × String) :=
  tree.filterMap fun pc =>
    match stripPre rule.srcSub pc.1 with
    | none => none
    | some rel =>
      if globMatch rule.pattern rel then
        if rule.keepPath then
          some (rule.dstSub ++ rel, pc.2)
        else
          match rel.getLast? with
          | some f => some (rule.dstSub ++ [f], pc.2)
          | none => none
      else none

/-- All writes of a manifest, in declared rule order. -/
def collectWrites (rules : List CopyRule) (tree : SourceTree) : List (Path × String) :=
  match rules with
  | [] => []
  | r :: rs => ruleWrites r tree ++ collectWrites rs tree

/-- Errors of the packaging engine. -/
inductive PkgError where
  | CopyConflict
deriving DecidableEq, Repr

/-- Modelled from the spec: apply writes to the output tree in order; writing
different content to an already-written destination path is a CopyConflict,
writing identical content is a no-op. -/
def insertWrites : List (Path × String) → List (Path × String) →
    Except PkgError (List (Path × String))
  | acc, [] => .ok acc
  | acc, w :: ws =>
    match acc.find? (fun x => decide (x.1 = w.1)) with
    | some x => if x.2 = w.2 then insertWrites acc ws else .error .CopyConflict
    | none => insertWrites (acc ++ [w]) ws

/-- Modelled from the spec: the packaging engine, a pure function from copy
rules and a source tree to an output artifact tree (or a CopyConflict). -/
def packageRules (rules : List CopyRule) (tree : SourceTree) :
    Except PkgError (List (Path × String)) :=
  insertWrites [] (collectWrites rules tree)

/-! ## Build-environment composer (spec section 4.5) -/

/-- Operations on environment variables. -/
inductive EnvOp where
  | prepend
  | append
  | set
deriving DecidableEq, Repr

/-- Build-info record a package exports and the composer merges. -/
structure BuildInfo where
  include_dirs : List String := []
  source_dirs : List String := []
  compiler_executables : List (String × String) := []
  compile_flags : List String := []
  cxx_flags : List String := []
  link_flags : List String := []
  env_edits : List (String × EnvOp × String) := []
deriving DecidableEq, Repr

/-- Errors of the composer. -/
inductive ComposeError where
  | ConflictingDefinition
deriving DecidableEq, Repr

/-- Keep the first occurrence of every element, dropping later duplicates. -/
def dedupKeepFirst : List String → List String
  | [] => []
  | x :: xs => x :: (dedupKeepFirst xs).filter (fun y => decide (y ≠ x))

/-- Modelled from the spec: sequence-valued fields are concatenated
dependency-first with duplicate-path de-duplication keeping the first
occurrence. -/
def mergeSeq (xs ys : List String) : List String :=
  dedupKeepFirst (xs ++ ys)

/-- Modelled from the spec: keyed compiler-executable maps compose with
first-definition-wins; redefining a set key to a different value is a
ConflictingDefinition, redefining it to the identical value is a no-op. -/
def mergeExec : List (String × String) → List (String × String) →
    Except ComposeError (List (String × String))
  | acc, [] => .ok acc
  | acc, (k, v) :: rest =>
    match acc.lookup k with
    | some v₀ => if v₀ = v then mergeExec acc rest else .error .ConflictingDefinition
    | none => mergeExec (acc ++ [(k, v)]) rest

/-- Modelled from the spec: merge one build-info record onto an accumulated
base: directory sequences concatenate with de-duplication, flag lists compose
additively (append, never replace), executables first-definition-wins, env
edits apply in dependency order. -/
def mergeInfo (base own : BuildInfo) : Except ComposeError BuildInfo :=
  match mergeExec base.compiler_executables own.compiler_executables with
  | .error e => .error e
  | .ok execs =>
    .ok
      { include_dirs := mergeSeq base.include_dirs own.include_dirs
        source_dirs := mergeSeq base.source_dirs own.source_dirs
        compiler_executables := execs
        compile_flags := base.compile_flags ++ own.compile_flags
        cxx_flags := base.cxx_flags ++ own.cxx_flags
        link_flags := base.link_flags ++ own.link_flags
        env_edits := base.env_edits ++ own.env_edits }

/-- The build-info a node starts from when it has no dependencies. -/
def emptyInfo : BuildInfo := {}

/-- Modelled from the spec: a node's composed build-info is the merge of its
direct dependencies' already-computed build-info, with the node's own exported
info appended last. -/
def composeNode (depInfos : List BuildInfo) (own : BuildInfo) :
    Except ComposeError BuildInfo := do
  let base ← depInfos.foldlM mergeInfo emptyInfo
  mergeInfo base own

/-- One node of a resolved build plan: name, direct dependency names, exported
build-info. -/
structure PlanNode where
  pname : String
  deps : List String
  exported : BuildInfo
deriving DecidableEq, Repr

/-- Modelled from the spec: walk the build plan in topological order and
compute every node's composed build-info. -/
def compose (plan : List PlanNode) : Except ComposeError (List (String × BuildInfo)) :=
  plan.foldlM
    (fun acc node => do
      let depInfos := node.deps.filterMap (fun d => acc.lookup d)
      let info ← composeNode depInfos node.exported
      pure (acc ++ [(node.pname, info)]))
    []

/-! ## Recipe data model (spec section 3) -/

/-- The recognized package kinds. -/
inductive PackageType where
  | headerOnly
  | sourceHeader
  | prebuiltBinary
deriving DecidableEq, Repr

/-- A declared requirement edge: dependency name plus optional exact pin. -/
structure Requirement where
  rname : String
  constraint : Option String
deriving DecidableEq, Repr

/-- A loaded recipe. -/
structure Recipe where
  name : String
  version : String
  ptype : PackageType
  source_manifest : List CopyRule := []
  requirements : List Requirement := []
  exported : BuildInfo := {}
deriving DecidableEq, Repr

/-- Whether a version satisfies a constraint (pin-exact or any). -/
def satisfies (c : Option String) (v : String) : Bool :=
  match c with
  | none => true
  | some pin => pin == v

/-- Run a recipe's source manifest through the packaging engine. -/
def packageRecipe (r : Recipe) (tree : SourceTree) :
    Except PkgError (List (Path × String)) :=
  packageRules r.source_manifest tree

/-! ## Dependency graph resolver (spec section 4.4) -/

/-- Errors of the resolver. -/
inductive ResolveError where
  | UnresolvedDependency
  | DependencyCycle
deriving DecidableEq, Repr

/-- Modelled from the spec: every declared requirement must resolve to exactly
one loaded recipe whose version satisfies the constraint. -/
def validate (recipes : List Recipe) : Bool :=
  recipes.all fun r =>
    r.requirements.all fun q =>
      (recipes.countP fun s => decide (s.name = q.rname) && satisfies q.constraint s.version) == 1

/-- A recipe is eligible for emission when all of its requirements name an
already-emitted recipe (zero remaining in-degree). -/
def eligible (emitted : List Recipe) (r : Recipe) : Bool :=
  r.requirements.all fun q => emitted.any fun e => e.name == q.rname

/-- Strict lexicographic order on character lists, by code point. -/
def charListLt : List Char → List Char → Bool
  | [], [] => false
  | [], _ :: _ => true
  | _ :: _, [] => false
  | a :: as, b :: bs =>
    if a.toNat < b.toNat then true
    else if b.toNat < a.toNat then false
    else charListLt as bs

/-- Strict lexicographic order on recipe names. -/
def nameLt (a b : String) : Bool :=
  charListLt a.data b.data

/-- The name-minimal recipe of a list, the resolver's deterministic
tie-break. -/
def pickMin : List Recipe → Option Recipe
  | [] => none
  | r :: rs => some (rs.foldl (fun a b => if nameLt b.name a.name then b else a) r)

/-- Modelled from the spec: Kahn's algorithm — repeatedly emit the
name-minimal recipe all of whose requirements are already emitted; if no
recipe is eligible while some remain, the graph has a cycle. -/
def kahn : Nat → List Recipe → List Recipe → Except ResolveError (List Recipe)
  | 0, emitted, remaining =>
    if remaining.isEmpty then .ok emitted else .error .DependencyCycle
  | fuel + 1, emitted, remaining =>
    if remaining.isEmpty then .ok emitted
    else
      match pickMin (remaining.filter (eligible emitted)) with
      | none => .error .DependencyCycle
      | some r => kahn fuel (emitted ++ [r]) (remaining.filter fun x => !(x.name == r.name))

/-- Modelled from the spec: resolve validates requirements and produces a
deterministic topological build order. -/
def resolve (recipes : List Recipe) : Except ResolveError (List Recipe) :=
  if validate recipes then kahn recipes.length [] recipes
  else .error .UnresolvedDependency

/-! ## Artifact acquirer (spec section 4.2) -/

/-- Errors of the artifact acquirer. -/
inductive AcquireError where
  | ChecksumMismatch
deriving DecidableEq, Repr

/-- The content-addressed artifact cache, keyed by (url, expected checksum). -/
structure Cache where
  entries : List ((String × String) × String)
deriving DecidableEq, Repr

/-- Modelled from the spec: acquire(url, expectedChecksum, stripRootLevels).
A matching cache entry is returned without network access; otherwise the
artifact is downloaded (the download and digest functions are parameters of
the model), its digest is compared with the expectation, a mismatch fails
with ChecksumMismatch leaving the cache unchanged, and a match extracts the
archive (stripping the given number of leading path components) and promotes
it to the cache. -/
def acquire (download : String → List Nat) (digest : List Nat → String)
    (extract : List Nat → Nat → String) (cache : Cache)
    (url expected : String) (stripRootLevels : Nat) :
    Except AcquireError String × Cache :=
  match cache.entries.lookup (url, expected) with
  | some p => (.ok p, cache)
  | none =>
    let bytes := download url
    if digest bytes = expected then
      let p := extract bytes stripRootLevels
      (.ok p, ⟨((url, expected), p) :: cache.entries⟩)
    else
      (.error .ChecksumMismatch, cache)

/-! ## Concrete recipe data, translated from the conanfile sources -/

/-- The compiler-executable map exported by the arm-none-eabi-gcc recipe
(toolchains/arm-none-eabi-gcc/conanfile.py, package_info). -/
def armExecs : List (String × String) :=
  [("c", "arm-none-eabi-gcc"),
   ("cpp", "arm-none-eabi-g++"),
   ("asm", "arm-none-eabi-gcc"),
   ("ar", "arm-none-eabi-ar"),
   ("objcopy", "arm-none-eabi-objcopy"),
   ("objdump", "arm-none-eabi-objdump"),
   ("nm", "arm-none-eabi-nm"),
   ("ranlib", "arm-none-eabi-ranlib"),
   ("strip", "arm-none-eabi-strip"),
   ("size", "arm-none-eabi-size")]

/-- The common_flags list of the toolchain recipe. -/
def commonFlags : List String :=
  ["-mcpu=cortex-m7", "-mthumb", "-mfloat-abi=hard", "-mfpu=fpv5-d16",
   "-specs=nosys.specs"]

/-- The build-info exported by the arm-none-eabi-gcc recipe: PATH gains the
package's bin directory, the compiler-executable map, and the cflags,
cxxflags and linkflags conf values. -/
def armToolchainInfo : BuildInfo :=
  { compiler_executables := armExecs
    compile_flags := commonFlags
    cxx_flags := commonFlags ++ ["-fno-exceptions", "-fno-rtti"]
    link_flags := ["-Wl,--gc-sections", "-Wl,--cref"]
    env_edits := [("PATH", EnvOp.append, "arm-none-eabi-gcc/bin")] }

/-- The cmsis recipe's exported build-info: one include directory.  Exported
directories are package-folder qualified (Conan resolves cpp_info directories
relative to each package's own folder). -/
def cmsisExported : BuildInfo :=
  { include_dirs := ["cmsis/include"] }

/-- The stm32g4_hal_driver recipe's exported build-info: include and source
directories, package-folder qualified. -/
def halExported : BuildInfo :=
  { include_dirs := ["stm32g4_hal_driver/include", "stm32g4_hal_driver/include/Legacy"]
    source_dirs := ["stm32g4_hal_driver/src"] }

/-- The stm32g4_hal_driver package rules (stm32g4_hal_driver/conanfile.py,
package): everything under Src to src, headers under Inc to include keeping
structure, headers under Inc/Legacy to include/Legacy keeping structure. -/
def halManifest : List CopyRule :=
  [⟨Glob.any, ["Src"], ["src"], true⟩,
   ⟨Glob.ext ".h", ["Inc"], ["include"], true⟩,
   ⟨Glob.ext ".h", ["Inc", "Legacy"], ["include", "Legacy"], true⟩]

/-- The cmsis package rules: headers under Include to include, keeping
structure. -/
def cmsisManifest : List CopyRule :=
  [⟨Glob.ext ".h", ["Include"], ["include"], true⟩]

/-- The cmsis recipe.  The version.txt contents are not part of the snapshot;
the stm32g4_hal_driver recipe pins cmsis/1.0.0, so the declared version is
taken as 1.0.0. -/
def cmsisRecipe : Recipe :=
  { name := "cmsis", version := "1.0.0", ptype := .headerOnly
    source_manifest := cmsisManifest
    exported := cmsisExported }

/-- The stm32g4_hal_driver recipe, requiring cmsis/1.0.0. -/
def halRecipe : Recipe :=
  { name := "stm32g4_hal_driver", version := "1.0.0", ptype := .headerOnly
    source_manifest := halManifest
    requirements := [⟨"cmsis", some "1.0.0"⟩]
    exported := halExported }

/-- The freertos recipe (resolver-relevant data). -/
def freertosRecipe : Recipe :=
  { name := "freertos", version := "1.0.0", ptype := .headerOnly }

/-- The st67w6x_network_driver recipe (resolver-relevant data). -/
def st67Recipe : Recipe :=
  { name := "st67w6x_network_driver", version := "1.0.0", ptype := .headerOnly }

/-- The arm-none-eabi-gcc recipe. -/
def armRecipe : Recipe :=
  { name := "arm-none-eabi-gcc", version := "1.0.0", ptype := .prebuiltBinary
    exported := armToolchainInfo }

/-- The five loaded recipes of the repository. -/
def repoRecipes : List Recipe :=
  [cmsisRecipe, freertosRecipe, st67Recipe, halRecipe, armRecipe]

/-- The build plan fragment covering the cmsis to stm32g4_hal_driver chain. -/
def halPlan : List PlanNode :=
  [⟨"cmsis", [], cmsisExported⟩,
   ⟨"stm32g4_hal_driver", ["cmsis"], halExported⟩]

/-- The expected sha256 digest the toolchain recipe declares for its prebuilt
archive (toolchains/arm-none-eabi-gcc/conanfile.py, build). -/
def armExpectedSha : String :=
  "6cd1bbc1d9ae57312bcd169ae283153a9572bd6a8e4eeae2fedfbc33b115fdbb"

/-- The download url the toolchain recipe declares. -/
def armUrl : String :=
  "https://developer.arm.com/-/media/Files/downloads/gnu/13.2.rel1/binrel/arm-gnu-toolchain-13.2.rel1-x86_64-arm-none-eabi.tar.xz"

/-- The Conan cpp_info record with its default directory lists, as the
FreeRTOS recipe's package_info mutates it. -/
structure CppInfo where
  includedirs : List String := ["include"]
  libdirs : List String := ["lib"]
  bindirs : List String := ["bin"]
  srcdirs : List String := []
deriving DecidableEq, Repr

/-- The freertos recipe's package_info (FreeRTOS/conanfile.py): clears libdirs
and bindirs and appends the entry include to the default includedirs. -/
def freertosCppInfo : CppInfo :=
  let c : CppInfo := {}
  { c with
      libdirs := []
      bindirs := []
      includedirs := c.includedirs ++ ["include"] }

/-! ## Properties used in the claim statements -/

/-- Every recipe in the list has all of its requirements named by a strictly
earlier entry. -/
def DepsBefore (l : List Recipe) : Prop :=
  ∀ i (hi : i < l.length), ∀ q ∈ l[i].requirements,
    ∃ e ∈ l.take i, e.name = q.rname

/-- All pending writes agree: any two writes to the same destination path
carry the same content. -/
def Compatible (ws : List (Path × String)) : Prop :=
  ∀ w₁ ∈ ws, ∀ w₂ ∈ ws, w₁.1 = w₂.1 → w₁.2 = w₂.2

end ProjectPackages

namespace ProjectPackages

/-! ## Theorems: recipe loader (claim C2) -/

theorem head?_dropWhile_ws {p : Char → Bool} {l : List Char} {c : Char}
    (h : (l.dropWhile p).head? = some c) : p c = false := by
  have hm := List.head?_dropWhile_not p l
  rw [h] at hm
  exact hm

theorem pyStrip_head_not_ws {l : List Char} {c : Char}
    (h : (pyStrip l).head? = some c) : isPyWs c = false := by
  obtain ⟨t, ht⟩ := List.dropWhile_suffix (l := (l.dropWhile isPyWs).reverse) isPyWs
  have hA : l.dropWhile isPyWs = pyStrip l ++ t.reverse := by
    have hr := congrArg List.reverse ht
    simpa [pyStrip, List.reverse_append] using hr.symm
  apply head?_dropWhile_ws (p := isPyWs) (l := l)
  rw [hA, List.head?_append, h]
  rfl

theorem pyStrip_getLast_not_ws {l : List Char} {c : Char}
    (h : (pyStrip l).getLast? = some c) : isPyWs c = false := by
  apply head?_dropWhile_ws (p := isPyWs) (l := (l.dropWhile isPyWs).reverse)
  rw [← List.head?_reverse] at h
  simpa [pyStrip] using h

/-- C2: loading resolves the version to the whitespace-trimmed content of the
recipe's version.txt descriptor; it fails with InvalidVersion when the
descriptor is missing or its content is empty after trimming; a successfully
resolved version has no leading or trailing whitespace. -/
theorem C2_version_loading :
    resolveVersion none = .error .InvalidVersion ∧
    (∀ s, pyStrip s = [] → resolveVersion (some s) = .error .InvalidVersion) ∧
    (∀ s, pyStrip s ≠ [] → resolveVersion (some s) = .ok (pyStrip s)) ∧
    (∀ s v, resolveVersion (some s) = .ok v →
      v = pyStrip s ∧
      (∀ c, v.head? = some c → isPyWs c = false) ∧
      (∀ c, v.getLast? = some c → isPyWs c = false)) := by
  refine ⟨rfl, ?_, ?_, ?_⟩
  · intro s hs
    simp [resolveVersion, hs]
  · intro s hs
    simp [resolveVersion, hs]
  · intro s v hv
    have hne : ¬ pyStrip s = [] := by
      intro hnil
      simp [resolveVersion, hnil] at hv
    have hveq : v = pyStrip s := by
      simp [resolveVersion, hne] at hv
      exact hv.symm
    subst hveq
    exact ⟨rfl, fun c hc => pyStrip_head_not_ws hc, fun c hc => pyStrip_getLast_not_ws hc⟩

/-- Witness for C2 at a concrete descriptor: a version string surrounded by
whitespace resolves to its trimmed text, whose first character is not
whitespace. -/
theorem C2_version_loading_witness :
    resolveVersion (some (' ' :: '1' :: '.' :: '0' :: '.' :: '0' :: '\n' :: [])) =
      .ok ('1' :: '.' :: '0' :: '.' :: '0' :: []) ∧ isPyWs '1' = false := by
  have h1 := C2_version_loading.2.2.1 (' ' :: '1' :: '.' :: '0' :: '.' :: '0' :: '\n' :: [])
    (by decide)
  have h2 := (C2_version_loading.2.2.2 (' ' :: '1' :: '.' :: '0' :: '.' :: '0' :: '\n' :: [])
    (pyStrip (' ' :: '1' :: '.' :: '0' :: '.' :: '0' :: '\n' :: [])) h1).2.1 '1' (by decide)
  exact ⟨h1, h2⟩

/-! ## Theorems: build-environment composer (claims C4, C5, C6) -/

theorem mem_dedupKeepFirst {x : String} : ∀ {l : List String},
    x ∈ dedupKeepFirst l ↔ x ∈ l := by
  intro l
  induction l with
  | nil => simp [dedupKeepFirst]
  | cons a as ih =>
    simp only [dedupKeepFirst, List.mem_cons, List.mem_filter, decide_eq_true_eq]
    constructor
    · rintro (rfl | ⟨hx, _⟩)
      · exact Or.inl rfl
      · exact Or.inr (ih.mp hx)
    · rintro (rfl | hx)
      · exact Or.inl rfl
      · by_cases hxa : x = a
        · exact Or.inl hxa
        · exact Or.inr ⟨ih.mpr hx, hxa⟩

theorem nodup_dedupKeepFirst : ∀ (l : List String), (dedupKeepFirst l).Nodup := by
  intro l
  induction l with
  | nil => simp [dedupKeepFirst]
  | cons a as ih =>
    rw [dedupKeepFirst, List.nodup_cons]
    refine ⟨?_, List.Nodup.filter _ ih⟩
    intro hmem
    have := (List.mem_filter.mp hmem).2
    simp at this

/-- Success shape of mergeInfo: the executables merged without conflict and
every other field combined as specified. -/
theorem mergeInfo_ok {base own out : BuildInfo} (h : mergeInfo base own = .ok out) :
    out.include_dirs = mergeSeq base.include_dirs own.include_dirs ∧
    out.source_dirs = mergeSeq base.source_dirs own.source_dirs ∧
    out.compile_flags = base.compile_flags ++ own.compile_flags ∧
    out.cxx_flags = base.cxx_flags ++ own.cxx_flags ∧
    out.link_flags = base.link_flags ++ own.link_flags ∧
    out.env_edits = base.env_edits ++ own.env_edits := by
  cases he : mergeExec base.compiler_executables own.compiler_executables with
  | error e =>
    rw [mergeInfo, he] at h
    exact absurd h (by simp)
  | ok ex =>
    rw [mergeInfo, he] at h
    rw [Except.ok.injEq] at h
    subst h
    exact ⟨rfl, rfl, rfl, rfl, rfl, rfl⟩

/-- C4: sequence-valued build-info fields compose dependency-first with
duplicate removal keeping the first occurrence; on the cmsis to
stm32g4_hal_driver chain the composed include-directory list has cmsis's
include directory first, followed by stm32g4_hal_driver's own directories,
with no duplicates. -/
theorem C4_include_dir_composition :
    (∀ xs ys : List String, (mergeSeq xs ys).Nodup) ∧
    (∀ (xs ys : List String) (x : String), x ∈ mergeSeq xs ys ↔ x ∈ xs ∨ x ∈ ys) ∧
    compose halPlan = .ok
      [("cmsis", { include_dirs := ["cmsis/include"] }),
       ("stm32g4_hal_driver",
        { include_dirs := ["cmsis/include", "stm32g4_hal_driver/include",
                           "stm32g4_hal_driver/include/Legacy"],
          source_dirs := ["stm32g4_hal_driver/src"] })] ∧
    (["cmsis/include", "stm32g4_hal_driver/include",
      "stm32g4_hal_driver/include/Legacy"] : List String).Nodup := by
  refine ⟨fun xs ys => nodup_dedupKeepFirst _, fun xs ys x => ?_, rfl, by decide⟩
  rw [mergeSeq, mem_dedupKeepFirst, List.mem_append]

/-- Witness for C4: a concrete membership through the merge, showing a
duplicate contributed by the dependent is kept only at its first position. -/
theorem C4_include_dir_composition_witness :
    "include" ∈ mergeSeq ["include"] ["include", "include/Legacy"] :=
  (C4_include_dir_composition.2.1 ["include"] ["include", "include/Legacy"]
    "include").mpr (Or.inl (by decide))

/-- C5: compiler-executable roles compose first-definition-wins; redefining a
set role to a different executable is a ConflictingDefinition, redefining to
the identical value is a no-op, as exercised on the toolchain recipe's role
map. -/
theorem C5_compiler_executable_conflicts :
    (∀ (acc : List (String × String)) (k v w : String), acc.lookup k = some v → v ≠ w →
      mergeExec acc [(k, w)] = .error .ConflictingDefinition) ∧
    (∀ (acc : List (String × String)) (k v : String), acc.lookup k = some v →
      mergeExec acc [(k, v)] = .ok acc) ∧
    (∀ kv ∈ armExecs, mergeExec armExecs [kv] = .ok armExecs) ∧
    mergeExec armExecs [("c", "clang")] = .error .ConflictingDefinition := by
  refine ⟨?_, ?_, ?_, rfl⟩
  · intro acc k v w hl hne
    simp [mergeExec, hl, hne]
  · intro acc k v hl
    simp [mergeExec, hl]
  · intro kv hkv
    fin_cases hkv <;> rfl

/-- Witness for C5 on the toolchain's c role: redefining it to clang is a
conflict, redefining it to the identical executable is a no-op. -/
theorem C5_compiler_executable_conflicts_witness :
    mergeExec [("c", "arm-none-eabi-gcc")] [("c", "clang")] =
      .error .ConflictingDefinition ∧
    mergeExec [("c", "arm-none-eabi-gcc")] [("c", "arm-none-eabi-gcc")] =
      .ok [("c", "arm-none-eabi-gcc")] :=
  ⟨C5_compiler_executable_conflicts.1 [("c", "arm-none-eabi-gcc")] "c"
      "arm-none-eabi-gcc" "clang" rfl (by decide),
   C5_compiler_executable_conflicts.2.1 [("c", "arm-none-eabi-gcc")] "c"
      "arm-none-eabi-gcc" rfl⟩

/-- C6: per-category flag lists compose additively: a node's exported flags
are appended after the flags contributed by its dependencies and nothing
contributed earlier is replaced or discarded; concretely, a consumer of the
toolchain keeps all toolchain flags with its own appended. -/
theorem C6_flags_additive :
    (∀ base own out : BuildInfo, mergeInfo base own = .ok out →
      out.compile_flags = base.compile_flags ++ own.compile_flags ∧
      out.cxx_flags = base.cxx_flags ++ own.cxx_flags ∧
      out.link_flags = base.link_flags ++ own.link_flags ∧
      (∀ f ∈ base.compile_flags, f ∈ out.compile_flags) ∧
      (∀ f ∈ base.cxx_flags, f ∈ out.cxx_flags) ∧
      (∀ f ∈ base.link_flags, f ∈ out.link_flags)) ∧
    mergeInfo armToolchainInfo { compile_flags := ["-Os"] } = .ok
      { compiler_executables := armExecs
        compile_flags := commonFlags ++ ["-Os"]
        cxx_flags := commonFlags ++ ["-fno-exceptions", "-fno-rtti"]
        link_flags := ["-Wl,--gc-sections", "-Wl,--cref"]
        env_edits := [("PATH", EnvOp.append, "arm-none-eabi-gcc/bin")] } := by
  refine ⟨?_, rfl⟩
  intro base own out h
  obtain ⟨_, _, hc, hx, hl, _⟩ := mergeInfo_ok h
  refine ⟨hc, hx, hl, ?_, ?_, ?_⟩
  · intro f hf
    rw [hc]
    exact List.mem_append_left _ hf
  · intro f hf
    rw [hx]
    exact List.mem_append_left _ hf
  · intro f hf
    rw [hl]
    exact List.mem_append_left _ hf

/-- Witness for C6 on the toolchain build-info and a consumer adding one
compile flag: the toolchain's flags all survive composition. -/
theorem C6_flags_additive_witness :
    ∃ out : BuildInfo,
      mergeInfo armToolchainInfo { compile_flags := ["-Os"] } = .ok out ∧
      out.compile_flags = armToolchainInfo.compile_flags ++ ["-Os"] :=
  ⟨_, C6_flags_additive.2,
    (C6_flags_additive.1 armToolchainInfo { compile_flags := ["-Os"] } _
      C6_flags_additive.2).1⟩

/-! ## Theorems: artifact acquirer (claim C3) -/

/-- C3: an acquisition whose downloaded bytes hash to a digest different from
the declared expectation fails with ChecksumMismatch, returns no artifact,
and creates no cache entry for the (url, checksum) key. -/
theorem C3_checksum_mismatch (download : String → List Nat)
    (digest : List Nat → String) (extract : List Nat → Nat → String)
    (cache : Cache) (url expected : String) (stripRootLevels : Nat)
    (hmiss : cache.entries.lookup (url, expected) = none)
    (hbad : digest (download url) ≠ expected) :
    acquire download digest extract cache url expected stripRootLevels =
      (.error .ChecksumMismatch, cache) ∧
    (acquire download digest extract cache url expected stripRootLevels).2.entries.lookup
      (url, expected) = none := by
  have hrun : acquire download digest extract cache url expected stripRootLevels =
      (.error .ChecksumMismatch, cache) := by
    rw [acquire, hmiss]
    simp [hbad]
  exact ⟨hrun, by rw [hrun]; exact hmiss⟩

/-- Witness for C3 at the toolchain recipe's declared url and sha256, with a
download whose digest disagrees and an initially empty cache. -/
theorem C3_checksum_mismatch_witness :
    acquire (fun _ => [0]) (fun _ => "0000") (fun _ _ => "extracted") ⟨[]⟩
      armUrl armExpectedSha 1 = (.error .ChecksumMismatch, ⟨[]⟩) :=
  (C3_checksum_mismatch (fun _ => [0]) (fun _ => "0000") (fun _ _ => "extracted")
    ⟨[]⟩ armUrl armExpectedSha 1 rfl (by decide)).1

/-! ## Theorems: packaging engine idempotence (claim C8) -/

/-- C8: packaging is idempotent and a function of the source manifest and
source tree alone: the same recipe run twice on the same tree gives the
identical output tree, and two recipes with equal manifests give identical
output on every tree. -/
theorem C8_package_idempotent :
    (∀ (r : Recipe) (tree : SourceTree), packageRecipe r tree = packageRecipe r tree) ∧
    (∀ (r₁ r₂ : Recipe) (tree : SourceTree), r₁.source_manifest = r₂.source_manifest →
      packageRecipe r₁ tree = packageRecipe r₂ tree) := by
  refine ⟨fun r tree => rfl, fun r₁ r₂ tree h => ?_⟩
  rw [packageRecipe, packageRecipe, h]

/-- Witness for C8: the stm32g4_hal_driver recipe and a renamed copy of it
produce the identical output tree on a concrete source tree. -/
theorem C8_package_idempotent_witness :
    packageRecipe halRecipe [(["Inc", "hal.h"], "H"), (["Src", "hal.c"], "C")] =
      packageRecipe { halRecipe with name := "hal-copy" }
        [(["Inc", "hal.h"], "H"), (["Src", "hal.c"], "C")] :=
  C8_package_idempotent.2 halRecipe { halRecipe with name := "hal-copy" }
    [(["Inc", "hal.h"], "H"), (["Src", "hal.c"], "C")] rfl

/-! ## Theorems: freertos exported cpp_info (claim C10) -/

/-- C10: the freertos recipe appends the entry include to the default
include-directory list instead of replacing it, so its exported includedirs
holds the path include twice, while its libdirs and bindirs are set empty. -/
theorem C10_freertos_cpp_info :
    freertosCppInfo.includedirs = ["include", "include"] ∧
    freertosCppInfo.includedirs.count "include" = 2 ∧
    freertosCppInfo.libdirs = [] ∧
    freertosCppInfo.bindirs = [] :=
  ⟨rfl, by decide, rfl, rfl⟩

/-! ## Theorems: dependency graph resolver (claims C1, C7) -/

theorem charListLt_irrefl : ∀ l : List Char, charListLt l l = false := by
  intro l
  induction l with
  | nil => rfl
  | cons a as ih => simp [charListLt, ih]

theorem charListLt_trans : ∀ a b c : List Char,
    charListLt a b = true → charListLt b c = true → charListLt a c = true := by
  intro a
  induction a with
  | nil =>
    intro b c hab hbc
    cases b with
    | nil => simp [charListLt] at hab
    | cons y ys =>
      cases c with
      | nil => simp [charListLt] at hbc
      | cons z zs => rfl
  | cons x xs ih =>
    intro b c hab hbc
    cases b with
    | nil => simp [charListLt] at hab
    | cons y ys =>
      cases c with
      | nil => simp [charListLt] at hbc
      | cons z zs =>
        simp only [charListLt] at hab hbc ⊢
        by_cases hxy : x.toNat < y.toNat
        · by_cases hyz : y.toNat < z.toNat
          · simp [show x.toNat < z.toNat by omega]
          · by_cases hzy : z.toNat < y.toNat
            · simp [hyz, hzy] at hbc
            · simp [show x.toNat < z.toNat by omega]
        · by_cases hyx : y.toNat < x.toNat
          · simp [hxy, hyx] at hab
          · by_cases hyz : y.toNat < z.toNat
            · simp [show x.toNat < z.toNat by omega]
            · by_cases hzy : z.toNat < y.toNat
              · simp [hyz, hzy] at hbc
              · simp only [hxy, hyx, if_false] at hab
                simp only [hyz, hzy, if_false] at hbc
                simp only [show ¬ x.toNat < z.toNat by omega,
                  show ¬ z.toNat < x.toNat by omega, if_false]
                exact ih ys zs hab hbc

theorem charListLt_eq_of_not_lt : ∀ a b : List Char,
    charListLt a b = false → charListLt b a = false → a = b := by
  intro a
  induction a with
  | nil =>
    intro b h1 _
    cases b with
    | nil => rfl
    | cons y ys => simp [charListLt] at h1
  | cons x xs ih =>
    intro b h1 h2
    cases b with
    | nil => simp [charListLt] at h2
    | cons y ys =>
      simp only [charListLt] at h1 h2
      by_cases hxy : x.toNat < y.toNat
      · simp [hxy] at h1
      · by_cases hyx : y.toNat < x.toNat
        · simp [hyx] at h2
        · have htn : x.toNat = y.toNat := by omega
          have hxyeq : x = y := Char.ext (UInt32.toNat.inj htn)
          subst hxyeq
          simp only [hxy, hyx, if_false] at h1 h2
          rw [ih ys h1 h2]

theorem nameLt_irrefl (a : String) : nameLt a a = false :=
  charListLt_irrefl a.data

theorem nameLt_trans {a b c : String} (h₁ : nameLt a b = true) (h₂ : nameLt b c = true) :
    nameLt a c = true :=
  charListLt_trans a.data b.data c.data h₁ h₂

theorem nameLt_eq_of_not_lt {a b : String} (h₁ : nameLt a b = false)
    (h₂ : nameLt b a = false) : a = b := by
  cases a with
  | mk da =>
    cases b with
    | mk db =>
      rw [charListLt_eq_of_not_lt da db h₁ h₂]

theorem foldlMin_mem : ∀ (rs : List Recipe) (a : Recipe),
    rs.foldl (fun x b => if nameLt b.name x.name then b else x) a = a ∨
    rs.foldl (fun x b => if nameLt b.name x.name then b else x) a ∈ rs := by
  intro rs
  induction rs with
  | nil => intro a; exact Or.inl rfl
  | cons b bs ih =>
    intro a
    rw [List.foldl_cons]
    rcases ih (if nameLt b.name a.name then b else a) with h | h
    · rw [h]
      by_cases hc : nameLt b.name a.name
      · rw [if_pos hc]
        exact Or.inr (List.mem_cons_self b bs)
      · rw [if_neg hc]
        exact Or.inl rfl
    · exact Or.inr (List.mem_cons_of_mem _ h)

theorem foldlMin_min : ∀ (rs : List Recipe) (a x : Recipe), (x = a ∨ x ∈ rs) →
    nameLt x.name (rs.foldl (fun y b => if nameLt b.name y.name then b else y) a).name
      = false := by
  intro rs
  induction rs with
  | nil =>
    rintro a x (rfl | hx)
    · exact nameLt_irrefl x.name
    · simp at hx
  | cons b bs ih =>
    rintro a x hx
    rw [List.foldl_cons]
    by_cases hc : nameLt b.name a.name
    · rw [if_pos hc]
      have hbm := ih b b (Or.inl rfl)
      rcases hx with rfl | hx
      · by_contra ham
        rw [Bool.not_eq_false] at ham
        exact absurd (nameLt_trans hc ham) (by rw [hbm]; simp)
      · rcases List.mem_cons.mp hx with rfl | hx
        · exact ih x x (Or.inl rfl)
        · exact ih b x (Or.inr hx)
    · rw [if_neg hc]
      have ham := ih a a (Or.inl rfl)
      rcases hx with rfl | hx
      · exact ham
      · rcases List.mem_cons.mp hx with rfl | hx
        · by_contra hbm
          rw [Bool.not_eq_false] at hbm
          by_cases hab : nameLt a.name x.name
          · exact absurd (nameLt_trans hab hbm) (by rw [ham]; simp)
          · have : a.name = x.name :=
              nameLt_eq_of_not_lt (Bool.not_eq_true _ ▸ hab)
                (Bool.of_not_eq_true hc)
            rw [← this] at hbm
            exact absurd hbm (by rw [ham]; simp)
        · exact ih a x (Or.inr hx)

theorem pickMin_mem {l : List Recipe} {r : Recipe} (h : pickMin l = some r) : r ∈ l := by
  cases l with
  | nil => simp [pickMin] at h
  | cons a as =>
    rw [pickMin, Option.some.injEq] at h
    rcases foldlMin_mem as a with hm | hm
    · rw [← h, hm]
      exact List.mem_cons_self a as
    · rw [← h]
      exact List.mem_cons_of_mem _ hm

theorem pickMin_min {l : List Recipe} {r : Recipe} (h : pickMin l = some r) :
    ∀ x ∈ l, nameLt x.name r.name = false := by
  cases l with
  | nil => simp [pickMin] at h
  | cons a as =>
    rw [pickMin, Option.some.injEq] at h
    intro x hx
    rw [← h]
    rcases List.mem_cons.mp hx with rfl | hx
    · exact foldlMin_min as x x (Or.inl rfl)
    · exact foldlMin_min as a x (Or.inr hx)

theorem depsBefore_append {l : List Recipe} {r : Recipe}
    (hl : DepsBefore l) (hr : ∀ q ∈ r.requirements, ∃ e ∈ l, e.name = q.rname) :
    DepsBefore (l ++ [r]) := by
  intro i hi q hq
  rw [List.length_append, List.length_singleton] at hi
  by_cases hlt : i < l.length
  · rw [List.getElem_append_left hlt] at hq
    obtain ⟨e, he, hen⟩ := hl i hlt q hq
    refine ⟨e, ?_, hen⟩
    rw [List.take_append_of_le_length (Nat.le_of_lt hlt)]
    exact he
  · have hieq : i = l.length := by omega
    rw [List.getElem_concat_length l r i hieq] at hq
    obtain ⟨e, he, hen⟩ := hr q hq
    refine ⟨e, ?_, hen⟩
    rw [hieq, List.take_left]
    exact he

theorem kahn_depsBefore : ∀ (fuel : Nat) (emitted remaining out : List Recipe),
    DepsBefore emitted → kahn fuel emitted remaining = .ok out → DepsBefore out := by
  intro fuel
  induction fuel with
  | zero =>
    intro emitted remaining out hd hk
    rw [kahn] at hk
    by_cases hre : remaining.isEmpty
    · rw [if_pos hre, Except.ok.injEq] at hk
      rw [← hk]
      exact hd
    · rw [if_neg hre] at hk
      exact absurd hk (by simp)
  | succ fuel ih =>
    intro emitted remaining out hd hk
    rw [kahn] at hk
    by_cases hre : remaining.isEmpty
    · rw [if_pos hre, Except.ok.injEq] at hk
      rw [← hk]
      exact hd
    · rw [if_neg hre] at hk
      cases hp : pickMin (remaining.filter (eligible emitted)) with
      | none =>
        rw [hp] at hk
        exact absurd hk (by simp)
      | some r =>
        rw [hp] at hk
        refine ih _ _ _ ?_ hk
        refine depsBefore_append hd ?_
        have hrmem := pickMin_mem hp
        have helig : eligible emitted r = true := (List.mem_filter.mp hrmem).2
        intro q hq
        rw [eligible, List.all_eq_true] at helig
        have hany := helig q hq
        rw [List.any_eq_true] at hany
        obtain ⟨e, he, heq⟩ := hany
        exact ⟨e, he, eq_of_beq heq⟩

theorem kahn_namesNodup : ∀ (fuel : Nat) (emitted remaining out : List Recipe),
    ((emitted ++ remaining).map Recipe.name).Nodup →
    kahn fuel emitted remaining = .ok out → (out.map Recipe.name).Nodup := by
  intro fuel
  induction fuel with
  | zero =>
    intro emitted remaining out hn hk
    rw [kahn] at hk
    by_cases hre : remaining.isEmpty
    · rw [if_pos hre, Except.ok.injEq] at hk
      rw [← hk]
      rw [List.map_append] at hn
      exact (List.nodup_append.mp hn).1
    · rw [if_neg hre] at hk
      exact absurd hk (by simp)
  | succ fuel ih =>
    intro emitted remaining out hn hk
    rw [kahn] at hk
    by_cases hre : remaining.isEmpty
    · rw [if_pos hre, Except.ok.injEq] at hk
      rw [← hk]
      rw [List.map_append] at hn
      exact (List.nodup_append.mp hn).1
    · rw [if_neg hre] at hk
      cases hp : pickMin (remaining.filter (eligible emitted)) with
      | none =>
        rw [hp] at hk
        exact absurd hk (by simp)
      | some r =>
        rw [hp] at hk
        refine ih _ _ _ ?_ hk
        rw [List.map_append] at hn
        obtain ⟨hE, hR, hdisj⟩ := List.nodup_append.mp hn
        have hrrem : r ∈ remaining :=
          List.mem_of_mem_filter (pickMin_mem hp)
        have hrR : r.name ∈ remaining.map Recipe.name :=
          List.mem_map_of_mem Recipe.name hrrem
        have hFsub : List.Sublist
            ((remaining.filter fun x => !(x.name == r.name)).map Recipe.name)
            (remaining.map Recipe.name) :=
          List.Sublist.map _ (List.filter_sublist remaining)
        have hF : ((remaining.filter fun x => !(x.name == r.name)).map Recipe.name).Nodup :=
          hR.sublist hFsub
        have hrnotF : r.name ∉ (remaining.filter fun x => !(x.name == r.name)).map
            Recipe.name := by
          intro hmem
          obtain ⟨x, hxf, hxn⟩ := List.mem_map.mp hmem
          have := (List.mem_filter.mp hxf).2
          rw [hxn] at this
          simp at this
        have hrnotE : r.name ∉ emitted.map Recipe.name := fun hc => hdisj hc hrR
        rw [List.map_append, List.map_append]
        rw [List.nodup_append]
        refine ⟨?_, hF, ?_⟩
        · rw [List.nodup_append]
          refine ⟨hE, List.nodup_singleton _, ?_⟩
          intro n hnE hnr
          rw [List.map_singleton, List.mem_singleton] at hnr
          rw [hnr] at hnE
          exact hrnotE hnE
        · intro n hn1 hn2
          rcases List.mem_append.mp hn1 with hnE | hnr
          · exact hdisj hnE (List.Sublist.subset hFsub hn2)
          · rw [List.map_singleton, List.mem_singleton] at hnr
            rw [hnr] at hn2
            exact hrnotF hn2

theorem resolve_topological {recipes out : List Recipe}
    (hres : resolve recipes = .ok out) :
    DepsBefore out ∧ ((recipes.map Recipe.name).Nodup → (out.map Recipe.name).Nodup) := by
  rw [resolve] at hres
  by_cases hv : validate recipes
  · rw [if_pos hv] at hres
    refine ⟨kahn_depsBefore recipes.length [] recipes out ?_ hres, fun hnd => ?_⟩
    · intro i hi
      simp at hi
    · exact kahn_namesNodup recipes.length [] recipes out (by simpa using hnd) hres
  · rw [if_neg hv] at hres
    exact absurd hres (by simp)

/-- C1: for every loaded recipe set with distinct names, a successful resolve
produces a topological order: any recipe that fulfils one of a later recipe's
requirements appears strictly earlier.  On the repository's recipes (whose
only edge is stm32g4_hal_driver requiring cmsis), the build plan places cmsis
strictly before stm32g4_hal_driver. -/
theorem C1_resolve_topological_order :
    (∀ (recipes order : List Recipe), (recipes.map Recipe.name).Nodup →
      resolve recipes = .ok order →
      ∀ (i j : Nat) (hi : i < order.length) (hj : j < order.length),
        ∀ q ∈ order[i].requirements, order[j].name = q.rname → j < i) ∧
    resolve repoRecipes =
      .ok [armRecipe, cmsisRecipe, freertosRecipe, st67Recipe, halRecipe] ∧
    ([armRecipe, cmsisRecipe, freertosRecipe, st67Recipe, halRecipe].map
        Recipe.name).indexOf "cmsis" <
      ([armRecipe, cmsisRecipe, freertosRecipe, st67Recipe, halRecipe].map
        Recipe.name).indexOf "stm32g4_hal_driver" := by
  refine ⟨?_, rfl, by decide⟩
  intro recipes order hnd hres i j hi hj q hq hname
  obtain ⟨hdeps, hnodup⟩ := resolve_topological hres
  obtain ⟨e, hetake, hename⟩ := hdeps i hi q hq
  obtain ⟨k, hk, hke⟩ := List.getElem_of_mem hetake
  have hkl : k < i := by
    have := hk
    rw [List.length_take] at this
    omega
  have hkord : k < order.length := by omega
  have hkeq : order[k] = e := by
    rw [List.getElem_take] at hke
    exact hke
  have hkm : k < (order.map Recipe.name).length := by simpa using hkord
  have hjm : j < (order.map Recipe.name).length := by simpa using hj
  have hnames : (order.map Recipe.name)[k] = (order.map Recipe.name)[j] := by
    rw [List.getElem_map, List.getElem_map, hkeq, hename, hname]
  have hkj : k = j := ((hnodup hnd).getElem_inj_iff).mp hnames
  omega

/-- Witness for C1: applying the topological-order theorem to the repository
build plan at the stm32g4_hal_driver requirement on cmsis, whose positions in
the plan are 1 (cmsis) and 4 (stm32g4_hal_driver). -/
theorem C1_resolve_topological_order_witness : (1 : Nat) < 4 :=
  C1_resolve_topological_order.1 repoRecipes
    [armRecipe, cmsisRecipe, freertosRecipe, st67Recipe, halRecipe]
    (by decide) C1_resolve_topological_order.2.1 4 1 (by decide) (by decide)
    ⟨"cmsis", some "1.0.0"⟩ (by decide) (by decide)

/-- C7: resolve is a deterministic function of the recipe set — running it
twice on unchanged input yields the identical order — and ties among
simultaneously eligible recipes are broken by ascending name: the picked
recipe is one no eligible recipe's name sorts strictly below.  On the
repository's recipes the resulting order interleaves the independent leaves
in ascending name order. -/
theorem C7_resolve_deterministic :
    (∀ recipes : List Recipe, resolve recipes = resolve recipes) ∧
    (∀ (l : List Recipe) (r : Recipe), pickMin l = some r →
      r ∈ l ∧ ∀ x ∈ l, nameLt x.name r.name = false) ∧
    resolve repoRecipes =
      .ok [armRecipe, cmsisRecipe, freertosRecipe, st67Recipe, halRecipe] := by
  refine ⟨fun recipes => rfl, fun l r h => ⟨pickMin_mem h, pickMin_min h⟩, rfl⟩

/-- Witness for C7: the tie-break at the first resolver step of the
repository's recipe set picks arm-none-eabi-gcc, an element of the set that
no recipe name sorts strictly below. -/
theorem C7_resolve_deterministic_witness :
    armRecipe ∈ repoRecipes ∧
    nameLt cmsisRecipe.name armRecipe.name = false :=
  ⟨(C7_resolve_deterministic.2.1 repoRecipes armRecipe rfl).1,
   (C7_resolve_deterministic.2.1 repoRecipes armRecipe rfl).2 cmsisRecipe
     (by decide)⟩

/-! ## Theorems: packaging-engine conflict analysis (claim C9) -/

theorem stripPre_eq_some : ∀ {a p rel : Path}, stripPre a p = some rel ↔ p = a ++ rel := by
  intro a
  induction a with
  | nil =>
    intro p rel
    simp [stripPre]
  | cons x xs ih =>
    intro p rel
    cases p with
    | nil => simp [stripPre]
    | cons b bs =>
      rw [stripPre]
      by_cases hxb : x = b
      · rw [if_pos hxb, ih]
        subst hxb
        simp
      · rw [if_neg hxb]
        refine iff_of_false (by simp) ?_
        intro h
        injection h with h1 _
        exact hxb h1.symm

theorem mem_ruleWrites {rule : CopyRule} {tree : SourceTree} {w : Path × String}
    (hk : rule.keepPath = true) :
    w ∈ ruleWrites rule tree ↔
      ∃ rel, (rule.srcSub ++ rel, w.2) ∈ tree ∧ globMatch rule.pattern rel = true ∧
        w.1 = rule.dstSub ++ rel := by
  rw [ruleWrites, List.mem_filterMap]
  constructor
  · rintro ⟨pc, hpc, hf⟩
    split at hf
    · exact absurd hf (by simp)
    · rename_i rel hsp
      by_cases hg : globMatch rule.pattern rel = true
      · rw [if_pos hg, if_pos hk, Option.some.injEq] at hf
        refine ⟨rel, ?_, hg, ?_⟩
        · have hp1 : pc.1 = rule.srcSub ++ rel := stripPre_eq_some.mp hsp
          have hw2 : w.2 = pc.2 := by rw [← hf]
          rw [hw2, ← hp1]
          exact hpc
        · rw [← hf]
      · rw [if_neg hg] at hf
        exact absurd hf (by simp)
  · rintro ⟨rel, htree, hg, hw⟩
    refine ⟨(rule.srcSub ++ rel, w.2), htree, ?_⟩
    have hs : stripPre rule.srcSub (rule.srcSub ++ rel) = some rel :=
      stripPre_eq_some.mpr rfl
    simp only [hs]
    rw [if_pos hg, if_pos hk, Option.some.injEq, ← hw]

theorem content_eq_of_nodupKeys : ∀ {tree : SourceTree},
    (tree.map Prod.fst).Nodup → ∀ {p : Path} {c₁ c₂ : String},
    (p, c₁) ∈ tree → (p, c₂) ∈ tree → c₁ = c₂ := by
  intro tree
  induction tree with
  | nil =>
    intro _ p c₁ c₂ h₁ _
    simp at h₁
  | cons e es ih =>
    intro hnd p c₁ c₂ h₁ h₂
    rw [List.map_cons, List.nodup_cons] at hnd
    rcases List.mem_cons.mp h₁ with he₁ | h₁
    · rcases List.mem_cons.mp h₂ with he₂ | h₂
      · rw [← he₁] at he₂
        exact (((Prod.mk.injEq _ _ _ _).mp he₂).2).symm
      · exfalso
        apply hnd.1
        rw [← he₁]
        exact List.mem_map.mpr ⟨(p, c₂), h₂, rfl⟩
    · rcases List.mem_cons.mp h₂ with he₂ | h₂
      · exfalso
        apply hnd.1
        rw [← he₂]
        exact List.mem_map.mpr ⟨(p, c₁), h₁, rfl⟩
      · exact ih hnd.2 h₁ h₂

theorem compatible_mono {l₁ l₂ : List (Path × String)} (hsub : ∀ x ∈ l₁, x ∈ l₂)
    (h : Compatible l₂) : Compatible l₁ :=
  fun w₁ h₁ w₂ h₂ => h w₁ (hsub _ h₁) w₂ (hsub _ h₂)

theorem insertWrites_ok : ∀ (ws acc : List (Path × String)),
    Compatible (acc ++ ws) → ∃ out, insertWrites acc ws = .ok out := by
  intro ws
  induction ws with
  | nil =>
    intro acc _
    exact ⟨acc, rfl⟩
  | cons w ws ih =>
    intro acc h
    rw [insertWrites]
    cases hf : acc.find? (fun x => decide (x.1 = w.1)) with
    | some x =>
      have hx : x ∈ acc := List.mem_of_find?_eq_some hf
      have hpred := List.find?_some (p := fun y : Path × String => decide (y.1 = w.1)) hf
      have hxy : x.1 = w.1 := by simpa using hpred
      have heq : x.2 = w.2 :=
        h x (List.mem_append_left _ hx) w
          (List.mem_append_right _ (List.mem_cons_self w ws)) hxy
      show ∃ out, (if x.2 = w.2 then insertWrites acc ws
        else Except.error PkgError.CopyConflict) = Except.ok out
      rw [if_pos heq]
      refine ih acc (compatible_mono ?_ h)
      intro y hy
      rcases List.mem_append.mp hy with hy | hy
      · exact List.mem_append_left _ hy
      · exact List.mem_append_right _ (List.mem_cons_of_mem w hy)
    | none =>
      show ∃ out, insertWrites (acc ++ [w]) ws = Except.ok out
      refine ih (acc ++ [w]) ?_
      rw [show (acc ++ [w]) ++ ws = acc ++ w :: ws by simp]
      exact h

theorem halWrites_compatible {tree : SourceTree} (hnd : (tree.map Prod.fst).Nodup) :
    Compatible (collectWrites halManifest tree) := by
  intro w₁ hw₁ w₂ hw₂ hdst
  have hmem : ∀ w ∈ collectWrites halManifest tree,
      w ∈ ruleWrites ⟨Glob.any, ["Src"], ["src"], true⟩ tree ∨
      w ∈ ruleWrites ⟨Glob.ext ".h", ["Inc"], ["include"], true⟩ tree ∨
      w ∈ ruleWrites ⟨Glob.ext ".h", ["Inc", "Legacy"], ["include", "Legacy"], true⟩
        tree := by
    intro w hw
    simp only [halManifest, collectWrites, List.append_nil, List.mem_append] at hw
    tauto
  rcases hmem w₁ hw₁ with h₁ | h₁ | h₁ <;> rcases hmem w₂ hw₂ with h₂ | h₂ | h₂ <;>
    obtain ⟨rel₁, ht₁, hg₁, hd₁⟩ := (mem_ruleWrites rfl).mp h₁ <;>
    obtain ⟨rel₂, ht₂, hg₂, hd₂⟩ := (mem_ruleWrites rfl).mp h₂ <;>
    rw [hd₁, hd₂] at hdst
  · -- Src rule against Src rule: identical source file
    have hrel := List.append_cancel_left hdst
    rw [hrel] at ht₁
    exact content_eq_of_nodupKeys hnd ht₁ ht₂
  · -- src destination against include destination: disjoint roots
    injection hdst with h1 _
    exact absurd h1 (by decide)
  · injection hdst with h1 _
    exact absurd h1 (by decide)
  · injection hdst with h1 _
    exact absurd h1 (by decide)
  · -- Inc rule against Inc rule: identical source file
    have hrel := List.append_cancel_left hdst
    rw [hrel] at ht₁
    exact content_eq_of_nodupKeys hnd ht₁ ht₂
  · -- Inc rule against Inc/Legacy rule: same source file under Inc/Legacy
    injection hdst with _ h2
    simp only [List.append_eq, List.nil_append, List.singleton_append] at h2
    rw [h2] at ht₁
    exact content_eq_of_nodupKeys hnd ht₁ ht₂
  · injection hdst with h1 _
    exact absurd h1 (by decide)
  · -- Inc/Legacy rule against Inc rule: same source file under Inc/Legacy
    injection hdst with _ h2
    simp only [List.append_eq, List.nil_append, List.singleton_append] at h2
    rw [← h2] at ht₂
    exact content_eq_of_nodupKeys hnd ht₁ ht₂
  · -- Inc/Legacy rule against Inc/Legacy rule: identical source file
    have hrel := List.append_cancel_left hdst
    rw [hrel] at ht₁
    exact content_eq_of_nodupKeys hnd ht₁ ht₂

/-- C9: the stm32g4_hal_driver packaging rules for Inc and Inc/Legacy overlap
on every header under Inc/Legacy — both rules produce a write of the same
source file's content to the same include/Legacy destination — and therefore,
for every source tree, packaging the recipe succeeds: the CopyConflict branch
is unreachable. -/
theorem C9_hal_copy_conflict_unreachable :
    (∀ tree : SourceTree, (tree.map Prod.fst).Nodup →
      ∃ out, packageRecipe halRecipe tree = .ok out) ∧
    (∀ (tree : SourceTree) (rel : Path) (c : String), rel ≠ [] →
      (["Inc", "Legacy"] ++ rel, c) ∈ tree →
      globMatch (Glob.ext ".h") rel = true →
      ((["include", "Legacy"] ++ rel, c) ∈
        ruleWrites ⟨Glob.ext ".h", ["Inc"], ["include"], true⟩ tree ∧
       (["include", "Legacy"] ++ rel, c) ∈
        ruleWrites ⟨Glob.ext ".h", ["Inc", "Legacy"], ["include", "Legacy"], true⟩
          tree)) := by
  constructor
  · intro tree hnd
    exact insertWrites_ok (collectWrites halManifest tree) []
      (halWrites_compatible hnd)
  · intro tree rel c hne htree hg
    constructor
    · rw [mem_ruleWrites rfl]
      refine ⟨"Legacy" :: rel, htree, ?_, rfl⟩
      cases rel with
      | nil => exact absurd rfl hne
      | cons a as =>
        simp only [globMatch] at hg ⊢
        rw [List.getLast?_cons_cons]
        exact hg
    · rw [mem_ruleWrites rfl]
      exact ⟨rel, htree, hg, rfl⟩

/-- Witness for C9: a concrete source tree with a header under Inc/Legacy —
covered by both include rules — packages without a CopyConflict, and the two
rules indeed both write that header to include/Legacy. -/
theorem C9_hal_copy_conflict_unreachable_witness :
    (∃ out, packageRecipe halRecipe
      [(["Inc", "Legacy", "old.h"], "X"), (["Inc", "hal.h"], "Y"),
       (["Src", "main.c"], "Z")] = .ok out) ∧
    (["include", "Legacy", "old.h"], "X") ∈
      ruleWrites ⟨Glob.ext ".h", ["Inc"], ["include"], true⟩
        [(["Inc", "Legacy", "old.h"], "X"), (["Inc", "hal.h"], "Y"),
         (["Src", "main.c"], "Z")] :=
  ⟨C9_hal_copy_conflict_unreachable.1
      [(["Inc", "Legacy", "old.h"], "X"), (["Inc", "hal.h"], "Y"),
       (["Src", "main.c"], "Z")] (by decide),
   (C9_hal_copy_conflict_unreachable.2
      [(["Inc", "Legacy", "old.h"], "X"), (["Inc", "hal.h"], "Y"),
       (["Src", "main.c"], "Z")] ["old.h"] "X" (by decide) (by decide)
      (by decide)).1⟩

end ProjectPackages
